import Mathlib

/-!
Verification development for the study-tracking bot in src/main.py.

The embedding below translates the core state and algorithms of the source:
the event-log codec (safe_str / make_log / parse_log_line), the per-member
session state machine driven by the panel buttons (checkin / toggle_break /
checkout), the admin time adjustment, the guild-level store together with the
replay engine (replay_from_logs), and the weekly ranking builder
(build_weekly_ranking_lines).  Python timestamps are modelled as integer
seconds, calendar dates as integer day indices, strings of the codec as
lists of characters, and the Python dicts holding users as functions from
member id to an optional record.
-/

namespace StudyBot

/-! ### Event log codec (src/main.py lines 127-128, 286-327) -/

/-- Marker starting every event-log line (`LOG_PREFIX = "[STUDYLOG]"`). -/
def logMark : List Char := "[STUDYLOG]".data

/-- Whitespace characters stripped by Python `str.strip()` (ASCII range). -/
def pySpace (c : Char) : Bool :=
  c == ' ' || c == '\t' || c == '\n' || c == '\r' || c == '\x0b' || c == '\x0c'

/-- Model of Python `str.lstrip()` on a list of characters. -/
def stripL (l : List Char) : List Char := l.dropWhile pySpace

/-- Model of Python `str.rstrip()`. -/
def stripR (l : List Char) : List Char := (l.reverse.dropWhile pySpace).reverse

/-- Model of Python `str.strip()`. -/
def pyStrip (l : List Char) : List Char := stripR (stripL l)

/-- Character substitution performed by `safe_str` (line 127): newline
becomes a space and a literal semicolon becomes a comma. -/
def sanitizeChar (c : Char) : Char :=
  if c = '\n' then ' ' else if c = ';' then ',' else c

/-- The `safe_str` sanitizer:
`str(v).replace("\n", " ").replace(";", ",").strip()`. -/
def safe_str (l : List Char) : List Char := pyStrip (l.map sanitizeChar)

/-- Python dict assignment `d[k] = v` on an insertion-ordered record:
update in place when the key exists, else append at the end. -/
def dinsert (d : List (List Char × List Char)) (k v : List Char) :
    List (List Char × List Char) :=
  if d.any (fun p => p.1 == k) then
    d.map (fun p => if p.1 == k then (k, v) else p)
  else d ++ [(k, v)]

/-- Python `d.get(k)` on the same representation. -/
def dget (d : List (List Char × List Char)) (k : List Char) : Option (List Char) :=
  (d.find? (fun p => p.1 == k)).map (fun p => p.2)

/-- Field dict built by `make_log` (lines 286-295): the base fields in the
stable order `action`, `uid`, `name`, `ts`, then the extra keyword fields,
with `name` and every extra value passed through `safe_str`. -/
def logDict (action uid name ts : List Char) (fields : List (List Char × List Char)) :
    List (List Char × List Char) :=
  fields.foldl (fun d p => dinsert d p.1 (safe_str p.2))
    [("action".data, action), ("uid".data, uid), ("name".data, safe_str name),
     ("ts".data, ts)]

/-- The `"; ".join(parts)` of `make_log`. -/
def joinSemi : List (List Char) → List Char
  | [] => []
  | [p] => p
  | p :: q :: ps => p ++ ';' :: ' ' :: joinSemi (q :: ps)

/-- `make_log` serialization (lines 286-296): marker, one space, then the
`k=v` parts joined with `"; "`.  `make_system_log` (lines 299-309) is this
with `uid = name = "SYSTEM"`. -/
def make_log (action uid name ts : List Char)
    (fields : List (List Char × List Char)) : List Char :=
  logMark ++ ' ' :: joinSemi ((logDict action uid name ts fields).map
    (fun p => p.1 ++ '=' :: p.2))

/-- Python `payload.split(";")`. -/
def splitSemi : List Char → List (List Char)
  | [] => [[]]
  | c :: cs =>
    if c = ';' then [] :: splitSemi cs
    else
      match splitSemi cs with
      | [] => [[c]]
      | r :: rs => (c :: r) :: rs

/-- Python `p.split("=", 1)` guarded by `"=" in p`: split at the first
equals sign, `none` when the part carries none. -/
def splitEq1 : List Char → Option (List Char × List Char)
  | [] => none
  | c :: cs =>
    if c = '=' then some ([], cs)
    else
      match splitEq1 cs with
      | none => none
      | some kv => some (c :: kv.1, kv.2)

/-- `parse_log_line` (lines 312-327): check the marker, strip the payload,
split on semicolons, strip each part, split each part at its first equals
sign (parts without one are skipped), strip key and value, build the dict,
and answer only when a nonempty `action` field is present. -/
def parse_log_line (l : List Char) : Option (List (List Char × List Char)) :=
  if logMark.isPrefixOf l then
    let payload := pyStrip (l.drop logMark.length)
    let parts := (splitSemi payload).map pyStrip
    let d := parts.foldl (fun d p =>
      match splitEq1 p with
      | none => d
      | some kv => dinsert d (pyStrip kv.1) (pyStrip kv.2)) []
    match dget d "action".data with
    | none => none
    | some v => if v = [] then none else some d
  else none

/-- Valid raw field value (the never-sanitized `action`, `uid`, `ts`): no
whitespace, no semicolon. -/
def hardStr (l : List Char) : Prop := ∀ c ∈ l, pySpace c = false ∧ c ≠ ';'

/-- Valid field key: nonempty, no whitespace, no semicolon, no equals sign. -/
def keyStr (l : List Char) : Prop :=
  l ≠ [] ∧ ∀ c ∈ l, pySpace c = false ∧ c ≠ ';' ∧ c ≠ '='

/-- Value shape every serialized value has: free of semicolons, with no
leading or trailing whitespace. -/
def cleanVal (l : List Char) : Prop :=
  (∀ c ∈ l, c ≠ ';') ∧
  (∀ c, l.head? = some c → pySpace c = false) ∧
  (∀ c, l.getLast? = some c → pySpace c = false)

instance (l : List Char) : Decidable (hardStr l) :=
  inferInstanceAs (Decidable (∀ c ∈ l, pySpace c = false ∧ c ≠ ';'))

instance (l : List Char) : Decidable (keyStr l) :=
  inferInstanceAs (Decidable (l ≠ [] ∧ ∀ c ∈ l, pySpace c = false ∧ c ≠ ';' ∧ c ≠ '='))

/-! ### Member session state machine (src/main.py lines 229-273, 621-804) -/

/-- Member status: the strings `"off"`, `"work"`, `"break"` of the source. -/
inductive Status
  | off
  | work
  | brk
deriving DecidableEq, Repr

/-- One member record, the per-user dict of `ensure_user` (lines 229-254).
Timestamps are integer seconds; `last_work_date` is an integer day index
standing for the ISO date string. -/
structure User where
  name : String
  status : Status
  start_time : Option Int
  break_start : Option Int
  total_break_today : Int
  weekly_total_sec : Int
  streak : Int
  last_work_date : Option Int
deriving DecidableEq, Repr

/-- Fresh user record created by `ensure_user`. -/
def newUser (nm : String) : User :=
  { name := nm, status := .off, start_time := none, break_start := none,
    total_break_today := 0, weekly_total_sec := 0, streak := 0,
    last_work_date := none }

/-- `calc_effective_study_sec` (lines 260-273): elapsed time since
`start_time` minus the accumulated break time, counting a still-open break
up to `now` when the member is on break, floored at zero. -/
def calc_effective_study_sec (u : User) (now : Int) : Int :=
  match u.start_time with
  | none => 0
  | some start =>
    let tb := u.total_break_today
    let tb := if u.status = .brk then
        match u.break_start with
        | some bs => tb + (now - bs)
        | none => tb
      else tb
    max ((now - start) - tb) 0

/-- Outcome of one button trigger: the member state afterwards, whether the
transition was accepted (the source answers with a success message), and
whether a durable log line exists afterwards.  The argument `appendOk`
models whether the `send_log_text` call succeeds; the source performs the
state mutation and sends the user-facing reply first and only afterwards
attempts the append inside a deferred task, swallowing failures
(lines 339-351, 592-596, 659-666). -/
def checkinFull (u : User) (now : Int) (appendOk : Bool) : User × Bool × Bool :=
  if u.status = .work then (u, false, false)
  else if u.status = .brk then (u, false, false)
  else
    ({ u with
        status := .work
        start_time := some now
        break_start := none
        total_break_today := 0 }, true, appendOk)

/-- The `toggle_break` button (lines 668-721): start a break when working,
end it when on break, reject when off.  A finished break adds
`max(delta, 0)` to the accumulated break time. -/
def toggleBreakFull (u : User) (now : Int) (appendOk : Bool) : User × Bool × Bool :=
  match u.status with
  | .off => (u, false, false)
  | .work =>
    ({ u with status := .brk, break_start := some now }, true, appendOk)
  | .brk =>
    let delta := match u.break_start with
      | some bs => now - bs
      | none => 0
    ({ u with
        total_break_today := u.total_break_today + max delta 0
        status := .work
        break_start := none }, true, appendOk)

/-- The `checkout` button (lines 723-804).  `today` is the calendar day of
`now` in the fixed timezone.  On break, the open break is folded into
`total_break_today` first (status itself is still `"break"` when
`calc_effective_study_sec` runs, exactly as in the source, where the open
break has already been cleared so no extra break time is added). -/
def checkoutFull (u : User) (now today : Int) (appendOk : Bool) : User × Bool × Bool :=
  if u.status = .off then (u, false, false)
  else
    let u1 := if u.status = .brk then
        match u.break_start with
        | some bs =>
          { u with
            total_break_today := u.total_break_today + max (now - bs) 0
            break_start := none }
        | none => { u with break_start := none }
      else u
    let studied := calc_effective_study_sec u1 now
    let weekly := u1.weekly_total_sec + studied
    let strk := if u1.last_work_date = some (today - 1) then u1.streak + 1
      else if u1.last_work_date = some today then u1.streak
      else 1
    ({ u1 with
        weekly_total_sec := weekly
        streak := strk
        last_work_date := some today
        status := .off
        start_time := none
        break_start := none
        total_break_today := 0 }, true, appendOk)

/-- Body of the admin `adjust_time` command (lines 1080-1087): patch the
weekly total by `delta_sec`, floored at zero.  The second component lists
the lines the handler appends to the durable event log; the source appends
none (it only saves the json snapshot and replies in the command channel). -/
def adjust_time (u : User) (delta_sec : Int) : User × List (List Char) :=
  ({ u with weekly_total_sec := max (u.weekly_total_sec + delta_sec) 0 }, [])

/-- Zeroing of a member's weekly total (weekly settlement, line 580, and
`ensure_week_current`, line 224). -/
def week_reset_apply (u : User) : User := { u with weekly_total_sec := 0 }

/-- One user-level state-changing operation, with arbitrary timestamps. -/
inductive Op
  | checkin (t : Int)
  | toggleBr (t : Int)
  | checkout (t d : Int)
  | adjust (d : Int)
  | weekReset
deriving Repr

/-- Apply one operation to a member record, exactly as the corresponding
handler in the source does. -/
def applyOp (u : User) : Op → User
  | .checkin t => (checkinFull u t true).1
  | .toggleBr t => (toggleBreakFull u t true).1
  | .checkout t d => (checkoutFull u t d true).1
  | .adjust d => (adjust_time u d).1
  | .weekReset => week_reset_apply u

/-! ### Guild store and replay engine (src/main.py lines 185-226, 1140-1266) -/

/-- Guild-level state: the week marker (an integer week index standing for
the ISO `week_start` string), the users dict, and the id of the last
`weekly_reset` log message, used to bound replay. -/
structure Guild where
  week_start : Int
  users : Nat → Option User
  last_weekly_reset_log_id : Option Nat

/-- Replace one entry of the users dict. -/
def updateUser (g : Guild) (uid : Nat) (u : User) : Guild :=
  { g with users := fun j => if j = uid then some u else g.users j }

/-- `ensure_user` (lines 229-254): refresh the display name when the record
exists, else create a fresh record. -/
def ensure_user (g : Guild) (uid : Nat) (nm : String) : Guild :=
  match g.users uid with
  | some u => updateUser g uid { u with name := nm }
  | none => updateUser g uid (newUser nm)

/-- `ensure_week_current` (lines 217-226): when the stored week marker
differs from the current week `cw`, advance it and zero every user's weekly
total. -/
def ensure_week_current (cw : Int) (g : Guild) : Guild :=
  if g.week_start = cw then g
  else
    { g with
      week_start := cw
      users := fun j => (g.users j).map week_reset_apply }

/-- Actor id carried by a parsed log event: numeric member id or the
literal `"SYSTEM"`. -/
inductive Uid
  | system
  | member (n : Nat)
deriving DecidableEq, Repr

/-- Action of a parsed log event, with the payload fields replay reads:
`studied_sec` parsed defensively to an integer and the optional digit-only
`streak` field.  Unknown actions fall through every branch of the replay
loop and change nothing. -/
inductive LAction
  | checkin
  | break_go
  | break_back
  | checkout (studied_sec : Int) (streak_field : Option Nat)
  | weekly_reset
  | other
deriving DecidableEq, Repr

/-- One message of the log channel: its position (message id, strictly
increasing in append order) and the parsed event.  `day` is the calendar
day of `ts`. -/
structure LMsg where
  id : Nat
  uid : Uid
  ts : Int
  day : Int
  act : LAction
deriving DecidableEq, Repr

/-- Body of the replay loop for one log message (lines 1180-1259).
`resolve` models `guild.get_member`: the display name of a current guild
member, or `none` when the actor has left.  A `SYSTEM weekly_reset` only
moves the checkpoint; an event whose actor does not resolve is skipped
before any state is touched. -/
def replayStep (resolve : Nat → Option String) (cw : Int) (g : Guild)
    (m : LMsg) : Guild :=
  if m.uid = Uid.system ∧ m.act = LAction.weekly_reset then
    { g with last_weekly_reset_log_id := some m.id }
  else
    match m.uid with
    | .system => g
    | .member n =>
      match resolve n with
      | none => g
      | some nm =>
        let g2 := ensure_user (ensure_week_current cw g) n nm
        let u := (g2.users n).getD (newUser nm)
        match m.act with
        | .checkin =>
          updateUser g2 n { u with
            status := .work
            start_time := some m.ts
            break_start := none
            total_break_today := 0 }
        | .break_go =>
          if u.status = .work then
            updateUser g2 n { u with status := .brk, break_start := some m.ts }
          else g2
        | .break_back =>
          if u.status = .brk then
            let delta := match u.break_start with
              | some bs => m.ts - bs
              | none => 0
            updateUser g2 n { u with
              total_break_today := u.total_break_today + max delta 0
              status := .work
              break_start := none }
          else g2
        | .checkout studied streakF =>
          updateUser g2 n { u with
            weekly_total_sec := u.weekly_total_sec + max studied 0
            streak := match streakF with
              | some s => (s : Int)
              | none => u.streak
            last_work_date := some m.day
            status := .off
            start_time := none
            break_start := none
            total_break_today := 0 }
        | .weekly_reset => g2
        | .other => g2

/-- Session-field reset applied to every user before the fold
(lines 1163-1170): status, start, break and accumulated break are cleared;
the weekly total, streak and last active date are kept. -/
def replayResetSession (u : User) : User :=
  { u with
    status := .off
    start_time := none
    break_start := none
    total_break_today := 0 }

/-- Step 1 of `replay_from_logs`: reset every user's session fields. -/
def replayResetAll (g : Guild) : Guild :=
  { g with users := fun j => (g.users j).map replayResetSession }

/-- Semantics of the collaborator call
`log_ch.history(limit=2000, oldest_first=True, after=after_obj)`
(line 1179): the oldest 2000 messages, restricted to positions strictly
after `after` when a bound is given. -/
def historyAfter (log : List LMsg) (after : Option Nat) : List LMsg :=
  match after with
  | none => log.take 2000
  | some c => (log.filter (fun m => decide (c < m.id))).take 2000

/-- The messages a replay run iterates over (`scanned` in the source). -/
def replayInspected (g : Guild) (log : List LMsg) : List LMsg :=
  historyAfter log g.last_weekly_reset_log_id

/-- `replay_from_logs` (lines 1140-1266): reset session fields, then fold
the inspected log segment with the replay step. -/
def replay_from_logs (resolve : Nat → Option String) (cw : Int) (g : Guild)
    (log : List LMsg) : Guild :=
  (replayInspected g log).foldl (replayStep resolve cw) (replayResetAll g)

/-- Weekly total recorded for a member id, zero when the record is absent. -/
def weeklyOf (g : Guild) (uid : Nat) : Int :=
  match g.users uid with
  | some u => u.weekly_total_sec
  | none => 0

/-- Amount one replayed message adds to one member's weekly total:
`max(studied_sec, 0)` for that member's checkout events, zero otherwise. -/
def msgContrib (uid : Nat) (m : LMsg) : Int :=
  if m.uid = Uid.member uid then
    match m.act with
    | .checkout s _ => max s 0
    | _ => 0
  else 0

/-- Sum of `max(studied_sec, 0)` over the checkout events of one member in
a log segment: the amount the replay fold adds to that member's weekly
total. -/
def checkoutSum (uid : Nat) : List LMsg → Int
  | [] => 0
  | m :: rest => msgContrib uid m + checkoutSum uid rest

/-! ### Weekly ranking (src/main.py lines 536-559) -/

/-- One rendered ranking line, kept structured: rank, display name, bar
length and the weekly seconds (the rendered string is a projection of
these four values). -/
structure REntry where
  rank : Nat
  name : String
  bar : Int
  sec : Int
deriving DecidableEq, Repr

/-- Descending stable sort
`users.sort(key=lambda u: u["weekly_total_sec"], reverse=True)`.
Python's sort is stable; a stable sort's output is determined by the
comparison and the input order, so any stable sort embeds it faithfully. -/
def sortDesc (users : List User) : List User :=
  List.insertionSort (fun a b => b.weekly_total_sec ≤ a.weekly_total_sec) users

/-- The ranking loop of `build_weekly_ranking_lines` (lines 545-555):
walk the sorted users, skip non-positive totals, emit a line with the
current dense rank and the proportional bar
`max(int(sec / top_sec * 20), 1)` (exact integer arithmetic;
Python truncates the float quotient, which agrees with floor on these
non-negative values), and stop after the twentieth line. -/
def rankLoop (top : Int) : List User → Nat → List REntry
  | [], _ => []
  | u :: rest, rank =>
    if u.weekly_total_sec ≤ 0 then rankLoop top rest rank
    else
      let e : REntry := { rank := rank, name := u.name
                          bar := max (u.weekly_total_sec * 20 / top) 1
                          sec := u.weekly_total_sec }
      if rank + 1 > 20 then [e] else e :: rankLoop top rest (rank + 1)

/-- `build_weekly_ranking_lines` (lines 536-559), structured: `none` models
the empty-ranking message, `some es` the ranked lines. -/
def build_weekly_ranking_entries (users : List User) : Option (List REntry) :=
  let sorted := sortDesc users
  if users.all (fun u => u.weekly_total_sec == 0) then none
  else
    let top := max ((sorted.headD (newUser "")).weekly_total_sec) 1
    some (rankLoop top sorted 1)

/-- Dense rank assignment starting at `r`: one entry per listed user, with
the truncated proportional bar. -/
def numberFrom (top : Int) (r : Nat) : List User → List REntry
  | [] => []
  | u :: rest =>
    { rank := r, name := u.name
      bar := max (u.weekly_total_sec * 20 / top) 1
      sec := u.weekly_total_sec } :: numberFrom top (r + 1) rest

/-- Ranking characterization used in the statement for C7: the
positive-total members of the sorted list, capped at twenty, ranked densely
from one, with truncated proportional bars. -/
def rankedSpec (sorted : List User) (top : Int) : List REntry :=
  numberFrom top 1 ((sorted.filter (fun u => decide (0 < u.weekly_total_sec))).take 20)

/-- Effective-study-time formula exactly as the specification words it,
for comparison with the source function (claim C4). -/
def specEffective (u : User) (t : Int) : Int :=
  match u.start_time with
  | none => 0
  | some s =>
    max 0 ((t - s) - (u.total_break_today +
      (if u.status = .brk then
        match u.break_start with
        | some b => t - b
        | none => 0
       else 0)))

/-! ### Concrete sample states, used to evaluate the model on small inputs -/

/-- A member who already carries a nonzero weekly total. -/
def sampleGuild : Guild :=
  { week_start := 0
    users := fun j =>
      if j = 1 then some { newUser "A" with weekly_total_sec := 100 } else none
    last_weekly_reset_log_id := none }

/-- Guild membership with exactly member 1 present. -/
def sampleResolve : Nat → Option String :=
  fun n => if n = 1 then some "A" else none

/-- A one-event log segment: a checkout carrying `studied_sec = 1800`. -/
def sampleLog : List LMsg :=
  [{ id := 10, uid := .member 1, ts := 50, day := 0, act := .checkout 1800 none }]

/-- A guild whose recorded checkpoint is the reset message with id 5. -/
def cpGuild : Guild :=
  { week_start := 0, users := fun _ => none, last_weekly_reset_log_id := some 5 }

/-- The recorded `weekly_reset` message. -/
def cpReset : LMsg :=
  { id := 5, uid := .system, ts := 0, day := 0, act := .weekly_reset }

/-- A log holding the reset message and one later event. -/
def cpLog : List LMsg :=
  [cpReset, { id := 7, uid := .member 1, ts := 3, day := 0, act := .checkin }]

/-- A working member whose last active day was day 4, streak 3. -/
def zUser : User :=
  { newUser "Z" with status := .work, start_time := some 0, streak := 3, last_work_date := some 4 }

/-! ### Helper lemmas -/

/-- The effective-study computation is floored at zero. -/
theorem calc_effective_nonneg (u : User) (t : Int) :
    0 ≤ calc_effective_study_sec u t := by
  unfold calc_effective_study_sec
  cases u.start_time with
  | none => exact le_refl 0
  | some s => exact le_max_right _ 0

/-- Every user-level operation keeps the weekly total and the accumulated
break time non-negative. -/
theorem applyOp_preserves_nonneg (u : User) (op : Op)
    (h1 : 0 ≤ u.weekly_total_sec) (h2 : 0 ≤ u.total_break_today) :
    0 ≤ (applyOp u op).weekly_total_sec ∧ 0 ≤ (applyOp u op).total_break_today := by
  obtain ⟨nm, st, st0, bs, tb, wk, sk, lw⟩ := u
  cases op with
  | checkin t =>
    cases st <;> simp_all [applyOp, checkinFull]
  | toggleBr t =>
    cases st <;> cases bs <;>
      simp_all [applyOp, toggleBreakFull] <;>
      positivity
  | checkout t d =>
    cases st <;> cases bs <;>
      simp_all [applyOp, checkoutFull] <;>
      exact add_nonneg (by assumption) (calc_effective_nonneg _ _)
  | adjust d =>
    simp_all [applyOp, adjust_time, le_max_iff]
  | weekReset =>
    simpa [applyOp, week_reset_apply] using h2

/-- A replay step on an event whose actor does not resolve to a current
guild member changes nothing. -/
theorem replayStep_unresolved (resolve : Nat → Option String) (cw : Int)
    (g : Guild) (m : LMsg) (n : Nat)
    (h1 : m.uid = Uid.member n) (h2 : resolve n = none) :
    replayStep resolve cw g m = g := by
  unfold replayStep
  rw [h1]
  simp [h2]

/-- Folding the replay step over a log equals folding it over the log with
the unresolved-actor events removed. -/
theorem replayFold_filter_resolved (resolve : Nat → Option String) (cw : Int) :
    ∀ (log : List LMsg) (g : Guild),
    log.foldl (replayStep resolve cw) g =
      (log.filter (fun m => match m.uid with
        | .system => true
        | .member k => (resolve k).isSome)).foldl (replayStep resolve cw) g := by
  intro log
  induction log with
  | nil => intro g; rfl
  | cons m rest ih =>
    intro g
    by_cases hk : (match m.uid with
      | Uid.system => true
      | Uid.member k => (resolve k).isSome) = true
    · simp only [List.filter_cons, hk, if_true, List.foldl_cons]
      exact ih _
    · have hstep : replayStep resolve cw g m = g := by
        cases hu : m.uid with
        | system => simp [hu] at hk
        | member k =>
          have hnone : resolve k = none := by
            cases hres : resolve k with
            | none => rfl
            | some v => rw [hu] at hk; simp [hres] at hk
          exact replayStep_unresolved resolve cw g m k hu hnone
      simp only [List.filter_cons, hk, if_false, List.foldl_cons, hstep]
      exact ih g

/-- Weekly total seen through an update of one user record. -/
theorem weeklyOf_updateUser (g : Guild) (n : Nat) (u : User) (uid : Nat) :
    weeklyOf (updateUser g n u) uid =
      if uid = n then u.weekly_total_sec else weeklyOf g uid := by
  unfold weeklyOf updateUser
  by_cases h : uid = n <;> simp [h]

/-- Refreshing or creating a user record does not change any weekly total. -/
theorem weeklyOf_ensure_user (g : Guild) (n : Nat) (nm : String) (uid : Nat) :
    weeklyOf (ensure_user g n nm) uid = weeklyOf g uid := by
  unfold ensure_user
  cases hu : g.users n with
  | some u =>
    rw [weeklyOf_updateUser]
    by_cases h : uid = n
    · subst h; simp [weeklyOf, hu]
    · simp [h]
  | none =>
    rw [weeklyOf_updateUser]
    by_cases h : uid = n
    · subst h; simp [weeklyOf, hu, newUser]
    · simp [h]

/-- After `ensure_user`, the looked-up record of that member carries the
weekly total the store already held (zero for a fresh record). -/
theorem ensure_user_weekly (g : Guild) (n : Nat) (nm : String) (d : User) :
    (((ensure_user g n nm).users n).getD d).weekly_total_sec = weeklyOf g n := by
  unfold ensure_user
  cases hu : g.users n with
  | some u => simp [updateUser, weeklyOf, hu]
  | none => simp [updateUser, weeklyOf, hu, newUser]

/-- `ensure_user` keeps the week marker. -/
theorem ensure_user_week_start (g : Guild) (n : Nat) (nm : String) :
    (ensure_user g n nm).week_start = g.week_start := by
  unfold ensure_user
  cases g.users n <;> rfl

/-- One replay step adds exactly the message's contribution to a resolved
member's weekly total and keeps the week marker current. -/
theorem replayStep_weekly (resolve : Nat → Option String) (cw : Int)
    (g : Guild) (m : LMsg) (uid : Nat) (nm : String)
    (hweek : g.week_start = cw) (hres : resolve uid = some nm) :
    weeklyOf (replayStep resolve cw g m) uid = weeklyOf g uid + msgContrib uid m ∧
    (replayStep resolve cw g m).week_start = cw := by
  have hwc : ensure_week_current cw g = g := by
    unfold ensure_week_current; rw [if_pos hweek]
  unfold replayStep
  by_cases hsys : m.uid = Uid.system ∧ m.act = LAction.weekly_reset
  · rw [if_pos hsys]
    exact ⟨by simp [weeklyOf, msgContrib, hsys.1], hweek⟩
  · rw [if_neg hsys]
    cases hu : m.uid with
    | system => exact ⟨by simp [msgContrib, hu], hweek⟩
    | member n =>
      simp only [hu]
      cases hr : resolve n with
      | none =>
        simp only [hr]
        have hne : n ≠ uid := fun h => by rw [h, hres] at hr; cases hr
        refine ⟨?_, hweek⟩
        simp [msgContrib, hu, hne]
      | some nm2 =>
        simp only [hr, hwc]
        have hg2w : ∀ j, weeklyOf (ensure_user g n nm2) j = weeklyOf g j :=
          fun j => weeklyOf_ensure_user g n nm2 j
        have hg2s : (ensure_user g n nm2).week_start = cw := by
          rw [ensure_user_week_start]; exact hweek
        have huw : (((ensure_user g n nm2).users n).getD (newUser nm2)).weekly_total_sec
            = weeklyOf g n := ensure_user_weekly g n nm2 (newUser nm2)
        cases ha : m.act with
        | checkin =>
          simp only [ha]
          rw [weeklyOf_updateUser]
          refine ⟨?_, by simp [updateUser, hg2s]⟩
          by_cases h : uid = n
          · subst h; simp [msgContrib, hu, ha, huw]
          · simp [h, hg2w, msgContrib, hu, ha, Ne.symm h]
        | break_go =>
          simp only [ha]
          by_cases hst : (((ensure_user g n nm2).users n).getD (newUser nm2)).status = Status.work
          · rw [if_pos hst, weeklyOf_updateUser]
            refine ⟨?_, by simp [updateUser, hg2s]⟩
            by_cases h : uid = n
            · subst h; simp [msgContrib, hu, ha, huw]
            · simp [h, hg2w, msgContrib, hu, ha, Ne.symm h]
          · rw [if_neg hst]
            exact ⟨by simp [hg2w, msgContrib, hu, ha], hg2s⟩
        | break_back =>
          simp only [ha]
          by_cases hst : (((ensure_user g n nm2).users n).getD (newUser nm2)).status = Status.brk
          · rw [if_pos hst, weeklyOf_updateUser]
            refine ⟨?_, by simp [updateUser, hg2s]⟩
            by_cases h : uid = n
            · subst h; simp [msgContrib, hu, ha, huw]
            · simp [h, hg2w, msgContrib, hu, ha, Ne.symm h]
          · rw [if_neg hst]
            exact ⟨by simp [hg2w, msgContrib, hu, ha], hg2s⟩
        | checkout s f =>
          simp only [ha]
          rw [weeklyOf_updateUser]
          refine ⟨?_, by simp [updateUser, hg2s]⟩
          by_cases h : uid = n
          · subst h; simp [msgContrib, hu, ha, huw]
          · simp [h, hg2w, msgContrib, hu, ha, Ne.symm h]
        | weekly_reset =>
          simp only [ha]
          exact ⟨by simp [hg2w, msgContrib, hu, ha], hg2s⟩
        | other =>
          simp only [ha]
          exact ⟨by simp [hg2w, msgContrib, hu, ha], hg2s⟩

/-- Folding a log segment adds its checkout sum to a resolved member's
weekly total. -/
theorem replayFold_weekly (resolve : Nat → Option String) (cw : Int)
    (uid : Nat) (nm : String) (hres : resolve uid = some nm) :
    ∀ (msgs : List LMsg) (g : Guild), g.week_start = cw →
    weeklyOf (msgs.foldl (replayStep resolve cw) g) uid =
      weeklyOf g uid + checkoutSum uid msgs := by
  intro msgs
  induction msgs with
  | nil => intro g _; simp [checkoutSum]
  | cons m rest ih =>
    intro g hweek
    rw [List.foldl_cons]
    obtain ⟨h1, h2⟩ := replayStep_weekly resolve cw g m uid nm hweek hres
    rw [ih _ h2, h1, checkoutSum]
    ring

/-- The pre-fold session reset keeps every weekly total. -/
theorem weeklyOf_resetAll (g : Guild) (uid : Nat) :
    weeklyOf (replayResetAll g) uid = weeklyOf g uid := by
  unfold weeklyOf replayResetAll replayResetSession
  cases hu : g.users uid <;> simp [hu]

/-- The ranking loop of the source equals dense rank numbering of the
positive-total users, capped by the remaining budget of twenty lines. -/
theorem rankLoop_eq (top : Int) :
    ∀ (us : List User) (r : Nat), r ≤ 20 →
    rankLoop top us r =
      numberFrom top r
        ((us.filter (fun u => decide (0 < u.weekly_total_sec))).take (21 - r)) := by
  intro us
  induction us with
  | nil => intro r _; simp [rankLoop, numberFrom]
  | cons u rest ih =>
    intro r hr
    by_cases hw : u.weekly_total_sec ≤ 0
    · have hd : (decide (0 < u.weekly_total_sec)) = false := by
        simp only [decide_eq_false_iff_not, not_lt]; exact hw
      rw [rankLoop, if_pos hw]
      simp only [List.filter_cons, hd, Bool.false_eq_true, if_false]
      exact ih r hr
    · push_neg at hw
      have hd : (decide (0 < u.weekly_total_sec)) = true := by simpa using hw
      rw [rankLoop, if_neg (by omega)]
      simp only [List.filter_cons, hd, if_true]
      have h21 : 21 - r = (20 - r) + 1 := by omega
      rw [h21, List.take_succ_cons, numberFrom]
      by_cases hcap : r + 1 > 20
      · have hr20 : r = 20 := by omega
        subst hr20
        simp [numberFrom]
      · rw [if_neg hcap]
        have h20 : 20 - r = 21 - (r + 1) := by omega
        rw [h20]
        simp only [List.cons.injEq, true_and]
        exact ih (r + 1) (by omega)

/-- Rank numbering emits consecutive ranks and one entry per listed user. -/
theorem numberFrom_ranks (top : Int) :
    ∀ (xs : List User) (r : Nat),
    (numberFrom top r xs).map (fun e => e.rank) = List.range' r xs.length ∧
    (numberFrom top r xs).length = xs.length := by
  intro xs
  induction xs with
  | nil => intro r; exact ⟨rfl, rfl⟩
  | cons x xs ih =>
    intro r
    refine ⟨?_, ?_⟩
    · simp only [numberFrom, List.map_cons, List.length_cons, List.range'_succ,
        List.cons.injEq, true_and]
      exact (ih (r + 1)).1
    · simp only [numberFrom, List.length_cons, (ih (r + 1)).2]

/-- Every emitted ranking entry shows one listed user's weekly seconds and
the truncated proportional bar computed from them. -/
theorem numberFrom_mem (top : Int) :
    ∀ (xs : List User) (r : Nat) (e : REntry), e ∈ numberFrom top r xs →
    ∃ u ∈ xs, e.sec = u.weekly_total_sec ∧
      e.bar = max (u.weekly_total_sec * 20 / top) 1 := by
  intro xs
  induction xs with
  | nil => intro r e h; cases h
  | cons x xs ih =>
    intro r e h
    rw [numberFrom] at h
    rcases List.mem_cons.mp h with h1 | h2
    · exact ⟨x, List.mem_cons_self _ _, by rw [h1], by rw [h1]⟩
    · obtain ⟨u, hu, he⟩ := ih (r + 1) e h2
      exact ⟨u, List.mem_cons_of_mem _ hu, he⟩

theorem splitSemi_ne_nil : ∀ l : List Char, splitSemi l ≠ [] := by
  intro l
  induction l with
  | nil => simp [splitSemi]
  | cons c cs ih =>
    rw [splitSemi]
    by_cases h : c = ';'
    · simp [h]
    · rw [if_neg h]
      cases hs : splitSemi cs with
      | nil => simp
      | cons r rs => simp

theorem splitSemi_append (p : List Char) (hp : ∀ c ∈ p, c ≠ ';') :
    ∀ l, splitSemi (p ++ l) = List.modifyHead (fun r => p ++ r) (splitSemi l) := by
  induction p with
  | nil =>
    intro l
    cases hs : splitSemi l with
    | nil => exact absurd hs (splitSemi_ne_nil l)
    | cons r rs => simp [hs, List.modifyHead]
  | cons c p ih =>
    intro l
    have hc : c ≠ ';' := hp c (List.mem_cons_self c p)
    have hp' : ∀ d ∈ p, d ≠ ';' := fun d hd => hp d (List.mem_cons_of_mem c hd)
    rw [List.cons_append, splitSemi, if_neg hc, ih hp' l]
    cases hs : splitSemi l with
    | nil => exact absurd hs (splitSemi_ne_nil l)
    | cons r rs => simp [hs, List.modifyHead]

theorem splitSemi_join :
    ∀ (ps : List (List Char)) (p : List Char),
    (∀ q ∈ p :: ps, ∀ c ∈ q, c ≠ ';') →
    splitSemi (joinSemi (p :: ps)) = p :: ps.map (fun q => ' ' :: q) := by
  intro ps
  induction ps with
  | nil =>
    intro p hp
    have h := splitSemi_append p (hp p (List.mem_cons_self p [])) []
    rw [joinSemi]
    simpa [splitSemi, List.modifyHead] using h
  | cons q ps ih =>
    intro p hp
    have hpp : ∀ c ∈ p, c ≠ ';' := hp p (List.mem_cons_self p _)
    rw [joinSemi, splitSemi_append p hpp, splitSemi, if_pos rfl]
    have h2 := splitSemi_append [' ']
      (by intro c hc; simp at hc; subst hc; decide) (joinSemi (q :: ps))
    rw [List.singleton_append] at h2
    rw [h2, ih q (fun r hr => hp r (List.mem_cons_of_mem p hr))]
    simp [List.modifyHead]

theorem splitEq1_mk (k v : List Char) (hk : ∀ c ∈ k, c ≠ '=') :
    splitEq1 (k ++ '=' :: v) = some (k, v) := by
  induction k with
  | nil => simp [splitEq1]
  | cons c k ih =>
    have hc : c ≠ '=' := hk c (List.mem_cons_self c k)
    rw [List.cons_append, splitEq1, if_neg hc,
      ih (fun d hd => hk d (List.mem_cons_of_mem c hd))]

theorem head_dropWhile (p : Char → Bool) :
    ∀ (l : List Char) (c : Char), (l.dropWhile p).head? = some c → p c = false := by
  intro l
  induction l with
  | nil => intro c h; simp [List.dropWhile] at h
  | cons a l ih =>
    intro c h
    rw [List.dropWhile_cons] at h
    by_cases ha : p a = true
    · rw [if_pos ha] at h; exact ih c h
    · rw [if_neg ha] at h
      simp at h
      subst h
      simpa using ha

theorem stripR_leading (l : List Char) : stripR l <+: l := by
  obtain ⟨t, ht⟩ := List.dropWhile_suffix (l := l.reverse) pySpace
  refine ⟨t.reverse, ?_⟩
  have h2 : (t ++ List.dropWhile pySpace l.reverse).reverse = l := by
    rw [ht, List.reverse_reverse]
  rw [List.reverse_append] at h2
  exact h2

theorem prefix_head_eq {l1 l2 : List Char} (h : l1 <+: l2) (hne : l1 ≠ []) :
    l2.head? = l1.head? := by
  obtain ⟨t, rfl⟩ := h
  exact List.head?_append_of_ne_nil l1 hne

theorem stripL_head (l : List Char) (c : Char) :
    (stripL l).head? = some c → pySpace c = false :=
  head_dropWhile pySpace l c

theorem stripR_getLast (l : List Char) (c : Char) :
    (stripR l).getLast? = some c → pySpace c = false := by
  intro h
  rw [stripR, List.getLast?_reverse] at h
  exact head_dropWhile pySpace l.reverse c h

theorem pyStrip_head (l : List Char) (c : Char) :
    (pyStrip l).head? = some c → pySpace c = false := by
  intro h
  have hne : stripR (stripL l) ≠ [] := by
    intro hnil
    rw [pyStrip, hnil] at h
    simp at h
  have := prefix_head_eq (stripR_leading (stripL l)) hne
  rw [pyStrip] at h
  rw [h] at this
  exact stripL_head l c this

theorem pyStrip_getLast (l : List Char) (c : Char) :
    (pyStrip l).getLast? = some c → pySpace c = false :=
  fun h => stripR_getLast (stripL l) c h

theorem mem_pyStrip {l : List Char} {c : Char} (h : c ∈ pyStrip l) : c ∈ l := by
  have h1 : c ∈ stripL l :=
    List.Sublist.mem h (stripR_leading (stripL l)).sublist
  exact List.Sublist.mem h1 (List.dropWhile_sublist pySpace)

theorem pyStrip_eq_self (l : List Char)
    (h1 : ∀ c, l.head? = some c → pySpace c = false)
    (h2 : ∀ c, l.getLast? = some c → pySpace c = false) :
    pyStrip l = l := by
  have hL : stripL l = l := by
    cases l with
    | nil => rfl
    | cons a l =>
      rw [stripL, List.dropWhile_cons, if_neg]
      rw [h1 a rfl]
      simp
  rw [pyStrip, hL]
  cases hrev : l.reverse with
  | nil =>
    have : l = [] := by
      have := congrArg List.reverse hrev
      simpa using this
    rw [this]; rfl
  | cons a t =>
    have hla : l.getLast? = some a := by
      rw [← List.head?_reverse, hrev]; rfl
    have ha : pySpace a = false := h2 a hla
    rw [stripR, hrev, List.dropWhile_cons, if_neg (by rw [ha]; simp)]
    rw [← hrev, List.reverse_reverse]

theorem pyStrip_space_cons (l : List Char) : pyStrip (' ' :: l) = pyStrip l := by
  rw [pyStrip, pyStrip, stripL, List.dropWhile_cons, if_pos (by decide)]
  rfl

theorem pyStrip_of_no_space (l : List Char) (h : ∀ c ∈ l, pySpace c = false) :
    pyStrip l = l := by
  refine pyStrip_eq_self l ?_ ?_
  · intro c hc
    exact h c (List.mem_of_mem_head? hc)
  · intro c hc
    exact h c (List.mem_of_mem_getLast? hc)

theorem sanitizeChar_not_semi (c : Char) :
    sanitizeChar c ≠ ';' := by
  unfold sanitizeChar
  by_cases h1 : c = '\n'
  · simp [h1]
  · rw [if_neg h1]
    by_cases h2 : c = ';'
    · simp [h2]
    · rw [if_neg h2]; exact h2

theorem safe_str_cleanVal (v : List Char) : cleanVal (safe_str v) := by
  refine ⟨?_, ?_, ?_⟩
  · intro c hc
    have := mem_pyStrip hc
    obtain ⟨d, _, rfl⟩ := List.mem_map.mp this
    exact sanitizeChar_not_semi d
  · intro c hc
    exact pyStrip_head _ c hc
  · intro c hc
    exact pyStrip_getLast _ c hc

theorem safe_str_stripFixed (v : List Char) : pyStrip (safe_str v) = safe_str v := by
  refine pyStrip_eq_self _ ?_ ?_
  · intro c hc; exact pyStrip_head _ c hc
  · intro c hc; exact pyStrip_getLast _ c hc

theorem hardStr_cleanVal {v : List Char} (h : hardStr v) : cleanVal v :=
  ⟨fun c hc => (h c hc).2,
   fun c hc => (h c (List.mem_of_mem_head? hc)).1,
   fun c hc => (h c (List.mem_of_mem_getLast? hc)).1⟩

theorem cleanVal_stripFixed {v : List Char} (h : cleanVal v) : pyStrip v = v :=
  pyStrip_eq_self v h.2.1 h.2.2

theorem safe_str_of_hardStr {v : List Char} (h : hardStr v) : safe_str v = v := by
  have hmap : v.map sanitizeChar = v := by
    have hid : ∀ c ∈ v, sanitizeChar c = c := by
      intro c hc
      have h1 := (h c hc).1
      have hn : c ≠ '\n' := by
        intro hnl; subst hnl; exact absurd h1 (by decide)
      unfold sanitizeChar
      rw [if_neg hn, if_neg (h c hc).2]
    rw [List.map_congr_left hid]
    simp
  rw [safe_str, hmap]
  exact cleanVal_stripFixed (hardStr_cleanVal h)

theorem keyStr_stripFixed {k : List Char} (h : keyStr k) : pyStrip k = k :=
  pyStrip_of_no_space k (fun c hc => (h.2 c hc).1)

theorem part_no_semi {k v : List Char} (hk : keyStr k) (hv : ∀ c ∈ v, c ≠ ';') :
    ∀ c ∈ k ++ '=' :: v, c ≠ ';' := by
  intro c hc
  rcases List.mem_append.mp hc with h | h
  · exact (hk.2 c h).2.1
  · rcases List.mem_cons.mp h with h1 | h2
    · rw [h1]; decide
    · exact hv c h2

theorem part_stripFixed {k v : List Char} (hk : keyStr k) (hv : cleanVal v) :
    pyStrip (k ++ '=' :: v) = k ++ '=' :: v := by
  refine pyStrip_eq_self _ ?_ ?_
  · intro c hc
    rw [List.head?_append_of_ne_nil k hk.1] at hc
    exact ((hk.2 c (List.mem_of_mem_head? hc)).1)
  · intro c hc
    rw [List.getLast?_append_of_ne_nil k (by simp)] at hc
    cases v with
    | nil => simp at hc; subst hc; decide
    | cons a t =>
      rw [List.getLast?_cons_cons] at hc
      exact hv.2.2 c hc

theorem part_ne_nil (k v : List Char) : k ++ '=' :: v ≠ [] := by
  simp

theorem joinSemi_head (p : List Char) (ps : List (List Char)) (hp : p ≠ []) :
    (joinSemi (p :: ps)).head? = p.head? := by
  cases ps with
  | nil => rfl
  | cons q ps =>
    rw [joinSemi]
    exact List.head?_append_of_ne_nil p hp

theorem joinSemi_ne_nil (p : List Char) (ps : List (List Char)) (hp : p ≠ []) :
    joinSemi (p :: ps) ≠ [] := by
  cases ps with
  | nil => exact hp
  | cons q ps =>
    rw [joinSemi]
    simp [hp]

theorem joinSemi_getLast :
    ∀ (ps : List (List Char)) (p : List Char), (∀ q ∈ p :: ps, q ≠ []) →
    ∀ c, (joinSemi (p :: ps)).getLast? = some c →
    ∃ q ∈ p :: ps, q.getLast? = some c := by
  intro ps
  induction ps with
  | nil =>
    intro p _ c hc
    exact ⟨p, List.mem_cons_self p [], hc⟩
  | cons q ps ih =>
    intro p hne c hc
    rw [joinSemi] at hc
    have hqne : joinSemi (q :: ps) ≠ [] :=
      joinSemi_ne_nil q ps (hne q (List.mem_cons_of_mem p (List.mem_cons_self q ps)))
    rw [List.getLast?_append_of_ne_nil p (by simp), List.getLast?_cons_cons] at hc
    cases hJ : joinSemi (q :: ps) with
    | nil => exact absurd hJ hqne
    | cons a t =>
      rw [hJ, List.getLast?_cons_cons] at hc
      obtain ⟨r, hr, hrc⟩ :=
        ih q (fun x hx => hne x (List.mem_cons_of_mem p hx)) c (by rw [hJ]; exact hc)
      exact ⟨r, List.mem_cons_of_mem p hr, hrc⟩

theorem dinsert_fresh (d : List (List Char × List Char)) (k v : List Char)
    (h : ∀ q ∈ d, q.1 ≠ k) : dinsert d k v = d ++ [(k, v)] := by
  rw [dinsert, if_neg]
  intro hany
  obtain ⟨q, hq, hqk⟩ := List.any_eq_true.mp hany
  exact h q hq (by simpa using hqk)

theorem foldl_dinsert_fresh :
    ∀ (L : List (List Char × List Char)) (acc : List (List Char × List Char)),
    (∀ p ∈ L, ∀ q ∈ acc, q.1 ≠ p.1) →
    (L.map (fun p => p.1)).Nodup →
    L.foldl (fun d p => dinsert d p.1 p.2) acc = acc ++ L := by
  intro L
  induction L with
  | nil => intro acc _ _; simp
  | cons p L ih =>
    intro acc hfresh hnd
    rw [List.foldl_cons,
      dinsert_fresh acc p.1 p.2 (fun q hq => hfresh p (List.mem_cons_self p L) q hq)]
    rw [List.map_cons, List.nodup_cons] at hnd
    have hfresh2 : ∀ r ∈ L, ∀ q ∈ acc ++ [(p.1, p.2)], q.1 ≠ r.1 := by
      intro r hr q hq
      rcases List.mem_append.mp hq with h1 | h2
      · exact hfresh r (List.mem_cons_of_mem p hr) q h1
      · have : q = (p.1, p.2) := by simpa using h2
        rw [this]
        intro heq
        exact hnd.1 (heq ▸ List.mem_map_of_mem (fun x => x.1) hr)
    rw [ih (acc ++ [(p.1, p.2)]) hfresh2 hnd.2]
    simp

theorem parse_foldl :
    ∀ (L : List (List Char × List Char)) (acc : List (List Char × List Char)),
    (∀ p ∈ L, keyStr p.1 ∧ pyStrip p.2 = p.2) →
    (∀ p ∈ L, ∀ q ∈ acc, q.1 ≠ p.1) →
    (L.map (fun p => p.1)).Nodup →
    (L.map (fun p => p.1 ++ '=' :: p.2)).foldl (fun d p =>
      match splitEq1 p with
      | none => d
      | some kv => dinsert d (pyStrip kv.1) (pyStrip kv.2)) acc = acc ++ L := by
  intro L
  induction L with
  | nil => intro acc _ _ _; simp
  | cons p L ih =>
    intro acc hcl hfresh hnd
    have hkey := (hcl p (List.mem_cons_self p L)).1
    have hval := (hcl p (List.mem_cons_self p L)).2
    simp only [List.map_cons, List.foldl_cons]
    rw [List.map_cons, List.nodup_cons] at hnd
    have hstep : (match splitEq1 (p.1 ++ '=' :: p.2) with
        | none => acc
        | some kv => dinsert acc (pyStrip kv.1) (pyStrip kv.2)) = acc ++ [(p.1, p.2)] := by
      rw [splitEq1_mk p.1 p.2 (fun c hc => (hkey.2 c hc).2.2)]
      show dinsert acc (pyStrip p.1) (pyStrip p.2) = acc ++ [(p.1, p.2)]
      rw [keyStr_stripFixed hkey, hval]
      exact dinsert_fresh acc p.1 p.2 (fun q hq => hfresh p (List.mem_cons_self p L) q hq)
    rw [hstep]
    have hfresh2 : ∀ r ∈ L, ∀ q ∈ acc ++ [(p.1, p.2)], q.1 ≠ r.1 := by
      intro r hr q hq
      rcases List.mem_append.mp hq with h1 | h2
      · exact hfresh r (List.mem_cons_of_mem p hr) q h1
      · have : q = (p.1, p.2) := by simpa using h2
        rw [this]
        intro heq
        exact hnd.1 (heq ▸ List.mem_map_of_mem (fun x => x.1) hr)
    rw [ih (acc ++ [(p.1, p.2)]) (fun r hr => hcl r (List.mem_cons_of_mem p hr)) hfresh2 hnd.2]
    simp

theorem foldl_dinsert_sanitize :
    ∀ (L : List (List Char × List Char)) (acc : List (List Char × List Char)),
    (∀ p ∈ L, ∀ q ∈ acc, q.1 ≠ p.1) →
    (L.map (fun p => p.1)).Nodup →
    L.foldl (fun d p => dinsert d p.1 (safe_str p.2)) acc =
      acc ++ L.map (fun p => (p.1, safe_str p.2)) := by
  intro L
  induction L with
  | nil => intro acc _ _; simp
  | cons p L ih =>
    intro acc hfresh hnd
    rw [List.foldl_cons,
      dinsert_fresh acc p.1 (safe_str p.2)
        (fun q hq => hfresh p (List.mem_cons_self p L) q hq)]
    rw [List.map_cons, List.nodup_cons] at hnd
    have hfresh2 : ∀ r ∈ L, ∀ q ∈ acc ++ [(p.1, safe_str p.2)], q.1 ≠ r.1 := by
      intro r hr q hq
      rcases List.mem_append.mp hq with h1 | h2
      · exact hfresh r (List.mem_cons_of_mem p hr) q h1
      · have : q = (p.1, safe_str p.2) := by simpa using h2
        rw [this]
        intro heq
        exact hnd.1 (heq ▸ List.mem_map_of_mem (fun x => x.1) hr)
    rw [ih (acc ++ [(p.1, safe_str p.2)]) hfresh2 hnd.2]
    simp

theorem isPrefixOf_self_append (p r : List Char) : p.isPrefixOf (p ++ r) = true := by
  induction p with
  | nil => simp [List.isPrefixOf]
  | cons c cs ih => simp [List.isPrefixOf, ih]

theorem parse_log_line_eval (rest : List Char) :
    parse_log_line (logMark ++ rest) =
      (match (((splitSemi (pyStrip rest)).map pyStrip).foldl (fun d p =>
          match splitEq1 p with
          | none => d
          | some kv => dinsert d (pyStrip kv.1) (pyStrip kv.2)) []).find?
            (fun q => q.1 == "action".data) with
       | none => none
       | some q =>
         if q.2 = [] then none
         else some (((splitSemi (pyStrip rest)).map pyStrip).foldl (fun d p =>
           match splitEq1 p with
           | none => d
           | some kv => dinsert d (pyStrip kv.1) (pyStrip kv.2)) [])) := by
  rw [parse_log_line]
  simp only [isPrefixOf_self_append, if_true, List.drop_left, dget]
  cases hf : (((splitSemi (pyStrip rest)).map pyStrip).foldl (fun d p =>
      match splitEq1 p with
      | none => d
      | some kv => dinsert d (pyStrip kv.1) (pyStrip kv.2)) []).find?
        (fun q => q.1 == "action".data) with
  | none => simp [hf]
  | some q => simp [hf]

theorem part_getLast_not_space {k v : List Char} (hv : cleanVal v) :
    ∀ c, (k ++ '=' :: v).getLast? = some c → pySpace c = false := by
  intro c hc
  rw [List.getLast?_append_of_ne_nil k (by simp)] at hc
  cases v with
  | nil => simp at hc; subst hc; decide
  | cons a t =>
    rw [List.getLast?_cons_cons] at hc
    exact hv.2.2 c hc

theorem parse_join_eval (D : List (List Char × List Char))
    (hDkv : ∀ q ∈ D, keyStr q.1 ∧ cleanVal q.2)
    (hDnd : (D.map (fun p => p.1)).Nodup)
    (hne : D ≠ []) :
    parse_log_line (logMark ++ ' ' :: joinSemi (D.map (fun p => p.1 ++ '=' :: p.2))) =
      (match D.find? (fun q => q.1 == "action".data) with
       | none => none
       | some q => if q.2 = [] then none else some D) := by
  obtain ⟨q0, D', rfl⟩ : ∃ q0 D', D = q0 :: D' := by
    cases D with
    | nil => exact absurd rfl hne
    | cons a b => exact ⟨a, b, rfl⟩
  have hq0 := hDkv q0 (List.mem_cons_self _ _)
  have hallne : ∀ q ∈ (q0 :: D').map (fun p => p.1 ++ '=' :: p.2), q ≠ [] := by
    intro q hq
    obtain ⟨r, _, rfl⟩ := List.mem_map.mp hq
    exact part_ne_nil r.1 r.2
  have hX : pyStrip (joinSemi ((q0 :: D').map (fun p => p.1 ++ '=' :: p.2))) =
      joinSemi ((q0 :: D').map (fun p => p.1 ++ '=' :: p.2)) := by
    refine pyStrip_eq_self _ ?_ ?_
    · intro c hc
      rw [List.map_cons, joinSemi_head _ _ (part_ne_nil q0.1 q0.2),
        List.head?_append_of_ne_nil _ hq0.1.1] at hc
      exact (hq0.1.2 c (List.mem_of_mem_head? hc)).1
    · intro c hc
      rw [List.map_cons] at hc
      obtain ⟨q, hq, hqc⟩ := joinSemi_getLast (D'.map (fun p => p.1 ++ '=' :: p.2))
        (q0.1 ++ '=' :: q0.2) (fun x hx => hallne x hx) c hc
      have hq2 : q ∈ List.map (fun p => p.1 ++ '=' :: p.2) (q0 :: D') := hq
      obtain ⟨r, hr, rfl⟩ := List.mem_map.mp hq2
      exact part_getLast_not_space (hDkv r hr).2 c hqc
  have hsemi : ∀ q ∈ (q0 :: D').map (fun p => p.1 ++ '=' :: p.2), ∀ c ∈ q, c ≠ ';' := by
    intro q hq
    obtain ⟨r, hr, rfl⟩ := List.mem_map.mp hq
    exact part_no_semi (hDkv r hr).1 (hDkv r hr).2.1
  have hsplit : splitSemi (joinSemi ((q0 :: D').map (fun p => p.1 ++ '=' :: p.2))) =
      (q0.1 ++ '=' :: q0.2) ::
        (D'.map (fun p => p.1 ++ '=' :: p.2)).map (fun q => ' ' :: q) := by
    rw [List.map_cons]
    exact splitSemi_join (D'.map (fun p => p.1 ++ '=' :: p.2)) (q0.1 ++ '=' :: q0.2)
      (fun x hx => hsemi x hx)
  have hstripmap : (((q0.1 ++ '=' :: q0.2) ::
        (D'.map (fun p => p.1 ++ '=' :: p.2)).map (fun q => ' ' :: q)).map pyStrip) =
      (q0 :: D').map (fun p => p.1 ++ '=' :: p.2) := by
    rw [List.map_cons, List.map_cons, part_stripFixed hq0.1 hq0.2, List.map_map]
    congr 1
    have : ∀ x ∈ D'.map (fun p => p.1 ++ '=' :: p.2), (pyStrip ∘ (fun q => ' ' :: q)) x = x := by
      intro x hx
      obtain ⟨r, hr, rfl⟩ := List.mem_map.mp hx
      show pyStrip (' ' :: (r.1 ++ '=' :: r.2)) = r.1 ++ '=' :: r.2
      rw [pyStrip_space_cons]
      exact part_stripFixed (hDkv r (List.mem_cons_of_mem q0 hr)).1
        (hDkv r (List.mem_cons_of_mem q0 hr)).2
    rw [List.map_congr_left this]
    simp
  have hfold := parse_foldl (q0 :: D') []
    (fun p hp => ⟨(hDkv p hp).1, cleanVal_stripFixed (hDkv p hp).2⟩)
    (by intro p _ q hq; simp at hq) hDnd
  rw [parse_log_line_eval, pyStrip_space_cons, hX, hsplit, hstripmap, hfold]
  simp

/-! ### Claim theorems -/

/-- C1, counterexample: pressing check-in while off with the durable append
failing still mutates the member state, still reports success, and leaves
no durable record — the claim's "state unchanged, reports failure" is false
on the code. -/
theorem checkin_mutates_despite_append_failure :
    (checkinFull (newUser "A") 0 false).1 ≠ newUser "A" ∧
    (checkinFull (newUser "A") 0 false).2.1 = true ∧
    (checkinFull (newUser "A") 0 false).2.2 = false := by
  decide

/-- C1, amended: for every state-changing trigger the in-memory mutation
and the user-facing reply are computed before and independently of the
durable-append outcome; a failed append only loses the log line (a durable
record exists exactly when the transition was accepted and the append
succeeded). -/
theorem trigger_commits_before_append (u : User) (now today : Int) (b : Bool) :
    ((checkinFull u now b).1 = (checkinFull u now true).1 ∧
      (checkinFull u now b).2.1 = (checkinFull u now true).2.1 ∧
      (checkinFull u now b).2.2 = ((checkinFull u now b).2.1 && b)) ∧
    ((toggleBreakFull u now b).1 = (toggleBreakFull u now true).1 ∧
      (toggleBreakFull u now b).2.1 = (toggleBreakFull u now true).2.1 ∧
      (toggleBreakFull u now b).2.2 = ((toggleBreakFull u now b).2.1 && b)) ∧
    ((checkoutFull u now today b).1 = (checkoutFull u now today true).1 ∧
      (checkoutFull u now today b).2.1 = (checkoutFull u now today true).2.1 ∧
      (checkoutFull u now today b).2.2 = ((checkoutFull u now today b).2.1 && b)) := by
  obtain ⟨nm, st, st0, bs, tb, wk, sk, lw⟩ := u
  cases st <;> cases bs <;>
    simp [checkinFull, toggleBreakFull, checkoutFull]

/-- C3, counterexample: an accepted time adjustment patches the weekly
total but appends nothing to the durable event log, so no `time_adjust`
record exists — the claim's "appends a corresponding time_adjust event"
is false on the code. -/
theorem adjust_time_appends_no_log_event :
    (adjust_time (newUser "A") 3600).1.weekly_total_sec = 3600 ∧
    (adjust_time (newUser "A") 3600).2 = [] := by
  decide

/-- C3, amended: every accepted time adjustment adds the signed delta to
the target's weekly total floored at zero and touches no other field, but
appends no event to the durable log, so the adjustment is not reproducible
from the log. -/
theorem adjust_time_floors_without_logging (u : User) (d : Int) :
    (adjust_time u d).1.weekly_total_sec = max (u.weekly_total_sec + d) 0 ∧
    (adjust_time u d).2 = [] ∧
    (adjust_time u d).1.status = u.status ∧
    (adjust_time u d).1.start_time = u.start_time ∧
    (adjust_time u d).1.break_start = u.break_start ∧
    (adjust_time u d).1.total_break_today = u.total_break_today ∧
    (adjust_time u d).1.streak = u.streak ∧
    (adjust_time u d).1.last_work_date = u.last_work_date := by
  simp [adjust_time]

/-- C4: the source's effective-study-time computation equals the
specification's formula
`max(0, (t - session_start) - (accumulated_break + open_break))` for every
member state and query time (both give 0 without a session start), and it
is a pure function of the state — the source only reads the record. -/
theorem calc_effective_matches_spec (u : User) (t : Int) :
    calc_effective_study_sec u t = specEffective u t := by
  obtain ⟨nm, st, st0, bs, tb, wk, sk, lw⟩ := u
  cases st0 <;> cases st <;> cases bs <;>
    simp [calc_effective_study_sec, specEffective, max_comm]

/-- C8: for every sequence of operations with arbitrary (also out-of-order
or clock-skewed) timestamps, the weekly total and the accumulated break
time stay non-negative, and the computed studied-seconds value is
non-negative at every query time. -/
theorem ops_preserve_nonnegativity (ops : List Op) (nm : String) (t : Int) :
    0 ≤ (ops.foldl applyOp (newUser nm)).weekly_total_sec ∧
    0 ≤ (ops.foldl applyOp (newUser nm)).total_break_today ∧
    0 ≤ calc_effective_study_sec (ops.foldl applyOp (newUser nm)) t := by
  have key : ∀ (l : List Op) (u : User),
      0 ≤ u.weekly_total_sec → 0 ≤ u.total_break_today →
      0 ≤ (l.foldl applyOp u).weekly_total_sec ∧
        0 ≤ (l.foldl applyOp u).total_break_today := by
    intro l
    induction l with
    | nil => intro u h1 h2; exact ⟨h1, h2⟩
    | cons op rest ih =>
      intro u h1 h2
      rw [List.foldl_cons]
      obtain ⟨k1, k2⟩ := applyOp_preserves_nonneg u op h1 h2
      exact ih _ k1 k2
  obtain ⟨k1, k2⟩ := key ops (newUser nm) (le_refl 0) (le_refl 0)
  exact ⟨k1, k2, calc_effective_nonneg _ _⟩

/-- C9: at check-out, the streak increments when the last active date is
yesterday, stays unchanged when it is today, and resets to 1 otherwise;
the last active date then becomes today. -/
theorem checkout_streak_rule (u : User) (now today : Int) (b : Bool)
    (h : u.status ≠ .off) :
    (checkoutFull u now today b).1.streak =
      (if u.last_work_date = some (today - 1) then u.streak + 1
       else if u.last_work_date = some today then u.streak
       else 1) ∧
    (checkoutFull u now today b).1.last_work_date = some today := by
  obtain ⟨nm, st, st0, bs, tb, wk, sk, lw⟩ := u
  cases st with
  | off => exact absurd rfl h
  | work => simp [checkoutFull]
  | brk => cases bs <;> simp [checkoutFull]

/-- C9, witness: member with streak 3 and last active day 4 checks out on
day 5 — the hypothesis and the conclusion hold at this input. -/
theorem checkout_streak_rule_witness :
    zUser.status ≠ Status.off ∧
    ((checkoutFull zUser 100 5 true).1.streak =
      (if zUser.last_work_date = some (5 - 1) then zUser.streak + 1
       else if zUser.last_work_date = some 5 then zUser.streak
       else 1) ∧
    (checkoutFull zUser 100 5 true).1.last_work_date = some 5) :=
  ⟨by decide, checkout_streak_rule zUser 100 5 true (by decide)⟩

/-- C6: once the checkpoint of a logged `weekly_reset` event is recorded,
replay iterates only over messages positioned strictly after it. -/
theorem replay_inspects_only_after_checkpoint (g : Guild) (log : List LMsg)
    (c : Nat) (m0 : LMsg)
    (hmem : m0 ∈ log) (hact : m0.act = LAction.weekly_reset) (hid : m0.id = c)
    (hcp : g.last_weekly_reset_log_id = some c) :
    ∀ m ∈ replayInspected g log, c < m.id := by
  intro m hm
  unfold replayInspected historyAfter at hm
  rw [hcp] at hm
  have h1 := List.mem_of_mem_take hm
  have h2 := List.of_mem_filter h1
  simpa using h2

/-- C6, witness: with the reset message (id 5) recorded as checkpoint, the
inspected segment of the sample log only holds later positions. -/
theorem replay_inspects_only_after_checkpoint_witness :
    cpReset ∈ cpLog ∧ cpReset.act = LAction.weekly_reset ∧ cpReset.id = 5 ∧
    cpGuild.last_weekly_reset_log_id = some 5 ∧
    ∀ m ∈ replayInspected cpGuild cpLog, 5 < m.id :=
  ⟨by decide, by decide, by decide, rfl,
    replay_inspects_only_after_checkpoint cpGuild cpLog 5 cpReset
      (by decide) (by decide) (by decide) rfl⟩

/-- C10: a replay-loop iteration on an event whose actor id does not
resolve to a current guild member leaves the whole state untouched, and
folding a log therefore equals folding the log with every
unresolved-actor event removed — such events, check-outs included,
contribute nothing to the reconstructed state. -/
theorem replay_skips_departed_members (resolve : Nat → Option String) (cw : Int) :
    (∀ (g : Guild) (m : LMsg) (n : Nat),
      m.uid = Uid.member n → resolve n = none →
      replayStep resolve cw g m = g) ∧
    (∀ (log : List LMsg) (g : Guild),
      log.foldl (replayStep resolve cw) g =
        (log.filter (fun m => match m.uid with
          | .system => true
          | .member k => (resolve k).isSome)).foldl (replayStep resolve cw) g) :=
  ⟨fun g m n h1 h2 => replayStep_unresolved resolve cw g m n h1 h2,
    fun log g => replayFold_filter_resolved resolve cw log g⟩

/-- C2, counterexample: replay does not start from empty state — it keeps
each member's prior weekly total and adds the segment's checkout sum on
top.  With a prior total of 100 seconds and a replayed segment whose only
checkout carries 1800 studied seconds, one replay yields 1900 (not the
segment sum 1800) and replaying the same segment again yields 3700, so two
replays of the same bounded segment do not produce identical state. -/
theorem replay_retains_prior_weekly_total :
    weeklyOf (replay_from_logs sampleResolve 0 sampleGuild sampleLog) 1 = 1900 ∧
    checkoutSum 1 (replayInspected sampleGuild sampleLog) = 1800 ∧
    weeklyOf (replay_from_logs sampleResolve 0
      (replay_from_logs sampleResolve 0 sampleGuild sampleLog) sampleLog) 1 = 3700 ∧
    (1900 : Int) ≠ 1800 := by
  refine ⟨by decide, by decide, by decide, by decide⟩

/-- C2, amended: replay resets only the session fields and retains weekly
totals; folding the bounded segment then adds, for every member still in
the guild, the sum of `max(studied_sec, 0)` over that member's checkout
events in the inspected segment.  Replay from a state whose weekly totals
are all zero therefore reproduces exactly the segment sums, but replay is
not idempotent from a nonzero state. -/
theorem replay_adds_segment_checkout_sum (resolve : Nat → Option String)
    (cw : Int) (g : Guild) (log : List LMsg) (uid : Nat) (nm : String)
    (hweek : g.week_start = cw) (hres : resolve uid = some nm) :
    weeklyOf (replay_from_logs resolve cw g log) uid =
      weeklyOf g uid + checkoutSum uid (replayInspected g log) := by
  unfold replay_from_logs
  rw [replayFold_weekly resolve cw uid nm hres _ _ (by simpa [replayResetAll] using hweek),
    weeklyOf_resetAll]

/-- C2, witness: the amended statement evaluated on the sample state:
100 retained plus the 1800-second checkout gives 1900. -/
theorem replay_adds_segment_checkout_sum_witness :
    sampleGuild.week_start = 0 ∧ sampleResolve 1 = some "A" ∧
    weeklyOf (replay_from_logs sampleResolve 0 sampleGuild sampleLog) 1 =
      weeklyOf sampleGuild 1 + checkoutSum 1 (replayInspected sampleGuild sampleLog) :=
  ⟨rfl, rfl,
    replay_adds_segment_checkout_sum sampleResolve 0 sampleGuild sampleLog 1 "A" rfl rfl⟩

/-- C7, counterexample: the source computes the bar length with Python
`int()` truncation, not `round()`.  For weekly totals 7200 and 3500 the
second bar is `int(3500 / 7200 * 20) = 9`, while the claimed
`round(3500 / 7200 * 20)` is 10. -/
theorem ranking_bar_truncates_not_rounds :
    build_weekly_ranking_entries
        [{ newUser "A" with weekly_total_sec := 7200 },
         { newUser "B" with weekly_total_sec := 3500 }] =
      some [⟨1, "A", 20, 7200⟩, ⟨2, "B", 9, 3500⟩] ∧
    round ((3500 : ℚ) / 7200 * 20) = 10 ∧
    ((9 : Int) ≠ 10) := by
  refine ⟨by decide, by norm_num [round_eq], by decide⟩

/-- C7, amended: the ranking lists exactly the members with positive weekly
totals of the descending-sorted user list, capped at twenty entries, with
dense ranks 1..N and bar length `max(floor(sec / top * 20), 1)` (truncation
rather than rounding); the empty-ranking message appears exactly when no
member has a nonzero weekly total; for totals 7200/3600/0 it lists two
entries with bars 20 and 10. -/
theorem ranking_matches_floor_spec (users : List User) :
    (build_weekly_ranking_entries users =
      if users.all (fun u => u.weekly_total_sec == 0) then none
      else some (rankedSpec (sortDesc users)
        (max ((sortDesc users).headD (newUser "")).weekly_total_sec 1))) ∧
    List.Sorted (fun a b : User => b.weekly_total_sec ≤ a.weekly_total_sec)
      (sortDesc users) ∧
    (sortDesc users).Perm users ∧
    (∀ top : Int,
      (rankedSpec (sortDesc users) top).map (fun e => e.rank) =
        List.range' 1 (rankedSpec (sortDesc users) top).length ∧
      (rankedSpec (sortDesc users) top).length ≤ 20 ∧
      ∀ e ∈ rankedSpec (sortDesc users) top,
        0 < e.sec ∧ e.bar = max (e.sec * 20 / top) 1) ∧
    build_weekly_ranking_entries
        [{ newUser "A" with weekly_total_sec := 7200 },
         { newUser "B" with weekly_total_sec := 3600 },
         { newUser "C" with weekly_total_sec := 0 }] =
      some [⟨1, "A", 20, 7200⟩, ⟨2, "B", 10, 3600⟩] := by
  refine ⟨?_, ?_, ?_, ?_, by decide⟩
  · unfold build_weekly_ranking_entries
    by_cases hz : users.all (fun u => u.weekly_total_sec == 0)
    · simp [hz]
    · simp only [hz, Bool.false_eq_true, if_false]
      rw [rankLoop_eq _ (sortDesc users) 1 (by omega)]
      rfl
  · haveI ht : IsTotal User (fun a b : User => b.weekly_total_sec ≤ a.weekly_total_sec) :=
      ⟨fun a b => (le_total a.weekly_total_sec b.weekly_total_sec).symm⟩
    haveI htr : IsTrans User (fun a b : User => b.weekly_total_sec ≤ a.weekly_total_sec) :=
      ⟨fun _ _ _ hab hbc => le_trans hbc hab⟩
    exact List.sorted_insertionSort _ users
  · exact List.perm_insertionSort _ users
  · intro top
    refine ⟨?_, ?_, ?_⟩
    · unfold rankedSpec
      rw [(numberFrom_ranks top _ 1).2]
      exact (numberFrom_ranks top _ 1).1
    · unfold rankedSpec
      rw [(numberFrom_ranks top _ 1).2, List.length_take]
      exact min_le_left _ _
    · intro e he
      unfold rankedSpec at he
      obtain ⟨u, hu, h1, h2⟩ := numberFrom_mem top _ 1 e he
      have hpos := List.of_mem_filter (List.mem_of_mem_take hu)
      refine ⟨?_, ?_⟩
      · rw [h1]; simpa using hpos
      · rw [h2, h1]

/-- C7, witness for the amended statement: its characterization conjunct
evaluated at a two-member list. -/
theorem ranking_matches_floor_spec_witness :
    build_weekly_ranking_entries
        [{ newUser "A" with weekly_total_sec := 7200 },
         { newUser "B" with weekly_total_sec := 3500 }] =
      if ([{ newUser "A" with weekly_total_sec := 7200 },
           { newUser "B" with weekly_total_sec := 3500 }] : List User).all
          (fun u => u.weekly_total_sec == 0) then none
      else some (rankedSpec
        (sortDesc [{ newUser "A" with weekly_total_sec := 7200 },
          { newUser "B" with weekly_total_sec := 3500 }])
        (max ((sortDesc [{ newUser "A" with weekly_total_sec := 7200 },
          { newUser "B" with weekly_total_sec := 3500 }]).headD
            (newUser "")).weekly_total_sec 1)) :=
  (ranking_matches_floor_spec
    [{ newUser "A" with weekly_total_sec := 7200 },
     { newUser "B" with weekly_total_sec := 3500 }]).1

/-- C10, witness: member 2 is not in the guild, so its logged check-in is
skipped by the replay step on the sample state. -/
theorem replay_skips_departed_members_witness :
    ({ id := 3, uid := .member 2, ts := 0, day := 0, act := .checkin } : LMsg).uid
        = Uid.member 2 ∧
    sampleResolve 2 = none ∧
    replayStep sampleResolve 0 sampleGuild
        { id := 3, uid := .member 2, ts := 0, day := 0, act := .checkin } = sampleGuild :=
  ⟨rfl, rfl,
    (replay_skips_departed_members sampleResolve 0).1 sampleGuild
      { id := 3, uid := .member 2, ts := 0, day := 0, act := .checkin } 2 rfl rfl⟩

/-- C5: for any valid event (marker-classified action, identifier-shaped
keys, whitespace- and semicolon-free raw base values), parsing the
serialized log line yields exactly the sanitized string value of every
input field, in the stable field order `action`, `uid`, `name`, `ts`,
then the extra fields. -/
theorem log_roundtrip (action uid name ts : List Char)
    (fields : List (List Char × List Char))
    (hact : hardStr action) (hane : action ≠ [])
    (huid : hardStr uid) (hts : hardStr ts)
    (hkeys : ∀ p ∈ fields, keyStr p.1)
    (hnd : ("action".data :: "uid".data :: "name".data :: "ts".data ::
        fields.map (fun p => p.1)).Nodup) :
    parse_log_line (make_log action uid name ts fields) =
      some (("action".data, safe_str action) :: ("uid".data, safe_str uid) ::
        ("name".data, safe_str name) :: ("ts".data, safe_str ts) ::
        fields.map (fun p => (p.1, safe_str p.2))) := by
  rw [safe_str_of_hardStr hact, safe_str_of_hardStr huid, safe_str_of_hardStr hts]
  have hldict : logDict action uid name ts fields =
      ("action".data, action) :: ("uid".data, uid) :: ("name".data, safe_str name) ::
        ("ts".data, ts) :: fields.map (fun p => (p.1, safe_str p.2)) := by
    rw [logDict]
    have hnd' := hnd
    simp only [List.nodup_cons, List.mem_cons, not_or] at hnd'
    have hfresh : ∀ p ∈ fields,
        ∀ q ∈ [("action".data, action), ("uid".data, uid),
          ("name".data, safe_str name), ("ts".data, ts)], q.1 ≠ p.1 := by
      intro p hp q hq
      have hpmem : p.1 ∈ fields.map (fun x => x.1) := List.mem_map_of_mem _ hp
      simp only [List.mem_cons, List.mem_singleton, List.not_mem_nil, or_false] at hq
      rcases hq with rfl | rfl | rfl | rfl
      · intro heq
        have heq2 : "action".data = p.1 := heq
        apply hnd'.1.2.2.2
        show ("action".data : List Char) ∈ List.map (fun x => x.1) fields
        rw [heq2]; exact hpmem
      · intro heq
        have heq2 : "uid".data = p.1 := heq
        apply hnd'.2.1.2.2
        show ("uid".data : List Char) ∈ List.map (fun x => x.1) fields
        rw [heq2]; exact hpmem
      · intro heq
        have heq2 : "name".data = p.1 := heq
        apply hnd'.2.2.1.2
        show ("name".data : List Char) ∈ List.map (fun x => x.1) fields
        rw [heq2]; exact hpmem
      · intro heq
        have heq2 : "ts".data = p.1 := heq
        apply hnd'.2.2.2.1
        show ("ts".data : List Char) ∈ List.map (fun x => x.1) fields
        rw [heq2]; exact hpmem
    rw [foldl_dinsert_sanitize fields
      [("action".data, action), ("uid".data, uid), ("name".data, safe_str name),
        ("ts".data, ts)] hfresh hnd'.2.2.2.2]
    rfl
  have hDkv : ∀ q ∈ ("action".data, action) :: ("uid".data, uid) ::
      ("name".data, safe_str name) :: ("ts".data, ts) ::
      fields.map (fun p => (p.1, safe_str p.2)), keyStr q.1 ∧ cleanVal q.2 := by
    have hkact : keyStr "action".data := ⟨by decide, by decide⟩
    have hkuid : keyStr "uid".data := ⟨by decide, by decide⟩
    have hkname : keyStr "name".data := ⟨by decide, by decide⟩
    have hkts : keyStr "ts".data := ⟨by decide, by decide⟩
    intro q hq
    simp only [List.mem_cons] at hq
    rcases hq with rfl | rfl | rfl | rfl | hq
    · exact ⟨hkact, hardStr_cleanVal hact⟩
    · exact ⟨hkuid, hardStr_cleanVal huid⟩
    · exact ⟨hkname, safe_str_cleanVal name⟩
    · exact ⟨hkts, hardStr_cleanVal hts⟩
    · obtain ⟨r, hr, rfl⟩ := List.mem_map.mp hq
      exact ⟨hkeys r hr, safe_str_cleanVal r.2⟩
  have hDnd : ((("action".data, action) :: ("uid".data, uid) ::
      ("name".data, safe_str name) :: ("ts".data, ts) ::
      fields.map (fun p => (p.1, safe_str p.2))).map (fun p => p.1)).Nodup := by
    simpa [List.map_map, Function.comp] using hnd
  rw [make_log, hldict, parse_join_eval _ hDkv hDnd (by simp)]
  have hfind : (("action".data, action) :: ("uid".data, uid) ::
      ("name".data, safe_str name) :: ("ts".data, ts) ::
      fields.map (fun p => (p.1, safe_str p.2))).find?
        (fun q => q.1 == "action".data) = some ("action".data, action) :=
    List.find?_cons_of_pos _ (by simp)
  rw [hfind]
  simp only [if_neg hane]

/-- C5, witness: a concrete checkout event with a name holding a
semicolon, a newline and surrounding whitespace round-trips to the
sanitized values. -/
theorem log_roundtrip_witness :
    hardStr "checkout".data ∧ "checkout".data ≠ [] ∧
    hardStr "42".data ∧ hardStr "T120".data ∧
    (∀ p ∈ [("studied_sec".data, "3300".data)], keyStr p.1) ∧
    ("action".data :: "uid".data :: "name".data :: "ts".data ::
      [("studied_sec".data, "3300".data)].map (fun p => p.1)).Nodup ∧
    parse_log_line (make_log "checkout".data "42".data " A;B\nC ".data "T120".data
        [("studied_sec".data, "3300".data)]) =
      some [("action".data, safe_str "checkout".data),
        ("uid".data, safe_str "42".data),
        ("name".data, safe_str " A;B\nC ".data),
        ("ts".data, safe_str "T120".data),
        ("studied_sec".data, safe_str "3300".data)] :=
  ⟨by decide, by decide, by decide, by decide, by decide, by decide,
    log_roundtrip "checkout".data "42".data " A;B\nC ".data "T120".data
      [("studied_sec".data, "3300".data)]
      (by decide) (by decide) (by decide) (by decide) (by decide) (by decide)⟩

end StudyBot
